import Mathlib

/-!
Verification of the appointment scheduling core of the barber booking API.

Strings are modelled as lists of characters, instants as integers (an
instant plus a number of minutes is integer addition, mirroring
datetime + timedelta(minutes=d)), and the appointment collection as a
list of documents in insertion order (Mongo natural order); find_one
returns the first match, update_one modifies the first match and reports
how many documents it actually changed.
-/

namespace BarberBooking

/-- The characters Python str.strip removes: space, tab, newline, carriage
return, vertical tab, form feed. -/
def pythonWhitespace (c : Char) : Bool :=
  c == ' ' || c == '\t' || c == '\n' || c == '\r' ||
  c == Char.ofNat 11 || c == Char.ofNat 12

/-- Python str.strip: drop leading and trailing whitespace. -/
def pyStrip (s : List Char) : List Char :=
  ((s.dropWhile pythonWhitespace).reverse.dropWhile pythonWhitespace).reverse

/-- Masking of one non-empty token inside mask_name: first character plus
one star for tokens of length at most 2, else first character plus three
stars (the empty case is unreachable, the tokens are filtered non-empty). -/
def maskToken : List Char → List Char
  | [] => []
  | c :: rest => if rest.length ≤ 1 then [c, '*'] else [c, '*', '*', '*']

/-- The token list the body of mask_name builds: strip the name, split on
the space character, keep the non-empty parts. -/
def partsOf (s : List Char) : List (List Char) :=
  ((pyStrip s).splitOn ' ').filter (fun p => !p.isEmpty)

/-- mask_name from src/main.py: strip the name, split on the space
character, keep the non-empty parts; with no parts return "Customer",
else mask each part and join with single spaces. The try/except wrapper
never fires: the body is total. -/
def mask_name (name : List Char) : List Char :=
  let parts := partsOf name
  if parts.isEmpty then "Customer".toList
  else List.intercalate [' '] (parts.map maskToken)

/-- ASCII digit test, modelling Python str.isdigit on the phone strings the
code handles. -/
def pyIsDigit (c : Char) : Bool := decide ('0' ≤ c) && decide (c ≤ '9')

/-- mask_phone from src/main.py: keep the digit characters in order; with
fewer than 4 digits return three stars, else a fixed prefix followed by the
last four digits. -/
def mask_phone (phone : List Char) : List Char :=
  let digits := phone.filter pyIsDigit
  if digits.length < 4 then "***".toList
  else "***-***-".toList ++ digits.drop (digits.length - 4)

/-- A stored appointment document, as create_appointment persists it and
schemas.py describes it: identity, customer fields, barber reference,
service label, start and end instants, duration in minutes, optional
notes, status string, optional updated_at instant. -/
structure Appointment where
  id : Nat
  customer_name : String
  customer_phone : String
  barber_id : String
  service_name : String
  start_time : Int
  end_time : Int
  duration_min : Int
  notes : Option String
  status : String
  updated_at : Option Int
deriving DecidableEq

/-- The request body of POST /api/appointments (AppointmentIn in
src/main.py): note there is no bound on duration_min. -/
structure AppointmentIn where
  customer_name : String
  customer_phone : String
  barber_id : String
  service_name : String
  start_time : Int
  duration_min : Int
  notes : Option String
deriving DecidableEq

/-- The two HTTPException errors the appointment endpoints raise. -/
inductive ApiError where
  | slotUnavailable
  | notFound
deriving DecidableEq

/-- The HTTP status code of each error as raised in src/main.py. -/
def ApiError.status_code : ApiError → Nat
  | .slotUnavailable => 400
  | .notFound => 404

/-- The detail string of each error as raised in src/main.py. -/
def ApiError.detail : ApiError → String
  | .slotUnavailable => "Time slot not available"
  | .notFound => "Appointment not found"

/-- The Mongo filter both check_availability and create_appointment pass to
find_one, as a predicate on one document: same barber, status not equal to
the string canceled, start_time < end and end_time > start. -/
def overlapQueryMatch (barber_id : String) (start e : Int) (a : Appointment) : Bool :=
  a.barber_id == barber_id && a.status != "canceled" &&
    (decide (a.start_time < e) && decide (a.end_time > start))

/-- GET /api/appointments/check from src/main.py: end = start plus the
duration in minutes; available iff find_one with the overlap filter
returns nothing. -/
def check_availability (store : List Appointment) (barber_id : String)
    (start_time duration_min : Int) : Bool :=
  let e := start_time + duration_min
  (store.find? (overlapQueryMatch barber_id start_time e)).isNone

/-- The document create_appointment inserts: the body fields plus the
computed end_time and status booked (updated_at is absent on insert). -/
def mkAppointment (newId : Nat) (body : AppointmentIn) (e : Int) : Appointment :=
  { id := newId, customer_name := body.customer_name,
    customer_phone := body.customer_phone, barber_id := body.barber_id,
    service_name := body.service_name, start_time := body.start_time,
    end_time := e, duration_min := body.duration_min, notes := body.notes,
    status := "booked", updated_at := none }

/-- POST /api/appointments from src/main.py: compute end, run the same
find_one overlap query; on a conflict raise 400 before any write, else
insert the document and return it (the code re-reads it by its fresh id).
The result pairs the response with the collection after the call. -/
def create_appointment (store : List Appointment) (newId : Nat)
    (body : AppointmentIn) : Except ApiError Appointment × List Appointment :=
  let start := body.start_time
  let e := start + body.duration_min
  match store.find? (overlapQueryMatch body.barber_id start e) with
  | some _ => (Except.error ApiError.slotUnavailable, store)
  | none =>
      let doc := mkAppointment newId body e
      (Except.ok doc, store ++ [doc])

/-- The update applied by the cancel endpoint: set status to canceled and
updated_at to the current instant, leaving every other field alone. -/
def applyCancelSet (now : Int) (a : Appointment) : Appointment :=
  { a with status := "canceled", updated_at := some now }

/-- Mongo update_one on the id filter with the cancel update: modify the
first document whose id matches; the returned count is the number of
documents actually changed (0 when nothing matched, and also when the
matched document already held exactly the written values). -/
def update_one_cancel : List Appointment → Nat → Int → List Appointment × Nat
  | [], _, _ => ([], 0)
  | a :: rest, aid, now =>
      if a.id = aid then
        let a2 := applyCancelSet now a
        (a2 :: rest, if a2 = a then 0 else 1)
      else
        let r := update_one_cancel rest aid now
        (a :: r.1, r.2)

/-- PATCH /api/appointments/{id}/cancel from src/main.py: run update_one;
if its modified count is 0 raise 404, else re-read the document by id and
return it. The result pairs the response with the collection after the
call. -/
def cancel_appointment (store : List Appointment) (appointment_id : Nat)
    (now : Int) : Except ApiError (Option Appointment) × List Appointment :=
  let r := update_one_cancel store appointment_id now
  if r.2 = 0 then (Except.error ApiError.notFound, r.1)
  else (Except.ok (r.1.find? (fun a => a.id == appointment_id)), r.1)

/-- The duration bound schemas.py declares for the appointment collection
(ge 5, le 240); src/main.py never applies it to AppointmentIn. -/
def durationWithinSchemaBounds (a : Appointment) : Prop :=
  5 ≤ a.duration_min ∧ a.duration_min ≤ 240

/-- Modelled from the words of the claim under test: split on whitespace
(any Python whitespace character) into non-empty tokens, then mask each
token and join with single spaces, with the Customer fallback. -/
def maskNameWhitespaceSpec (name : List Char) : List Char :=
  let parts := (name.splitOnP pythonWhitespace).filter (fun p => !p.isEmpty)
  if parts.isEmpty then "Customer".toList
  else List.intercalate [' '] (parts.map maskToken)

/-- An independent tokenizer for the amended description of mask_name:
scan the stripped string, accumulating runs of non-space characters. -/
def specTokensGo : List Char → List Char → List (List Char)
  | [], acc => if acc.isEmpty then [] else [acc.reverse]
  | c :: rest, acc =>
      if c == ' ' then
        if acc.isEmpty then specTokensGo rest []
        else acc.reverse :: specTokensGo rest []
      else specTokensGo rest (c :: acc)

/-- The maximal space-free tokens of a string, scanned left to right. -/
def specTokens (s : List Char) : List (List Char) := specTokensGo s []

/-- The amended description of mask_name: strip, split on the space
character (not on general whitespace) into non-empty tokens; with no
tokens return Customer, else mask each token and join with single
spaces. -/
def maskNameSpaceSpec (name : List Char) : List Char :=
  let parts := specTokens (pyStrip name)
  if parts.isEmpty then "Customer".toList
  else List.intercalate [' '] (parts.map maskToken)

/-- A booked appointment for barber B over the half-open interval from
minute 600 to minute 630, used as a concrete store entry. -/
def w_appt : Appointment :=
  { id := 0, customer_name := "Jo Smith", customer_phone := "555-123-4567",
    barber_id := "B", service_name := "Haircut", start_time := 600,
    end_time := 630, duration_min := 30, notes := none, status := "booked",
    updated_at := none }

/-- A request body overlapping w_appt: same barber, start 615, 15 minutes. -/
def w_body : AppointmentIn :=
  { customer_name := "Al Doe", customer_phone := "555-000-1111",
    barber_id := "B", service_name := "Haircut", start_time := 615,
    duration_min := 15, notes := none }

/-- A request body whose duration 3 lies outside the schema bounds 5..240. -/
def oobBody : AppointmentIn :=
  { customer_name := "Al Doe", customer_phone := "555-000-1111",
    barber_id := "B", service_name := "Haircut", start_time := 300,
    duration_min := 3, notes := none }

end BarberBooking

namespace BarberBooking

/-- overlapQueryMatch holds exactly on a non-canceled appointment of the
same barber whose interval meets the half-open overlap inequality. -/
theorem overlapQueryMatch_iff (b : String) (s e : Int) (a : Appointment) :
    overlapQueryMatch b s e a = true ↔
      a.barber_id = b ∧ a.status ≠ "canceled" ∧ a.start_time < e ∧ s < a.end_time := by
  simp [overlapQueryMatch, and_assoc]

/-- overlapQueryMatch fails exactly when the appointment is for another
barber, is canceled, or misses the overlap inequality. -/
theorem overlapQueryMatch_eq_false_iff (b : String) (s e : Int) (a : Appointment) :
    overlapQueryMatch b s e a = false ↔
      (a.barber_id = b → a.status ≠ "canceled" → ¬(a.start_time < e ∧ s < a.end_time)) := by
  rw [← Bool.not_eq_true, overlapQueryMatch_iff]
  tauto

end BarberBooking

namespace BarberBooking

/-- C1: the availability check computes end = start + duration minutes and
answers true iff no stored non-canceled appointment of the barber meets
the half-open overlap test start_time < end and end_time > start; an
appointment whose end_time equals the candidate start never matches the
overlap filter. -/
theorem availability_half_open_overlap (store : List Appointment)
    (b : String) (start dur : Int) :
    (check_availability store b start dur = true ↔
      ∀ a ∈ store, a.barber_id = b → a.status ≠ "canceled" →
        ¬(a.start_time < start + dur ∧ a.end_time > start)) ∧
    (∀ a ∈ store, a.end_time = start →
      overlapQueryMatch b start (start + dur) a = false) := by
  constructor
  · simp only [check_availability, Option.isNone_iff_eq_none, List.find?_eq_none,
      Bool.not_eq_true, overlapQueryMatch_eq_false_iff, gt_iff_lt]
  · intro a _ hend
    rw [overlapQueryMatch_eq_false_iff]
    intro _ _ hov
    rw [hend] at hov
    exact lt_irrefl start hov.2

/-- C2: for any store and request body, the read-only availability check
answers false exactly when creating with the same barber, start and
duration fails with SlotUnavailable: both run the same overlap query. -/
theorem check_false_iff_create_slot_unavailable (store : List Appointment)
    (newId : Nat) (body : AppointmentIn) :
    check_availability store body.barber_id body.start_time body.duration_min = false ↔
      (create_appointment store newId body).1 = Except.error ApiError.slotUnavailable := by
  cases h : store.find? (overlapQueryMatch body.barber_id body.start_time
      (body.start_time + body.duration_min)) <;>
    simp [check_availability, create_appointment, h]

/-- C3: when a conflicting non-canceled appointment for the requested
barber is stored, create fails with SlotUnavailable, surfaced as status
400 with detail Time slot not available, and the collection is unchanged. -/
theorem create_conflict_no_write (store : List Appointment) (newId : Nat)
    (body : AppointmentIn) (a : Appointment) (ha : a ∈ store)
    (hb : a.barber_id = body.barber_id) (hs : a.status ≠ "canceled")
    (h1 : a.start_time < body.start_time + body.duration_min)
    (h2 : a.end_time > body.start_time) :
    (create_appointment store newId body).1 = Except.error ApiError.slotUnavailable ∧
    (create_appointment store newId body).2 = store ∧
    ApiError.slotUnavailable.status_code = 400 ∧
    ApiError.slotUnavailable.detail = "Time slot not available" := by
  have hsome : (store.find? (overlapQueryMatch body.barber_id body.start_time
      (body.start_time + body.duration_min))).isSome :=
    List.find?_isSome.2 ⟨a, ha, (overlapQueryMatch_iff _ _ _ _).2 ⟨hb, hs, h1, h2⟩⟩
  obtain ⟨c, hc⟩ := Option.isSome_iff_exists.mp hsome
  refine ⟨?_, ?_, rfl, rfl⟩ <;> simp [create_appointment, hc]

/-- C3 witness: the conflict hypotheses hold concretely for w_appt against
w_body, and the create call is rejected with no write. -/
theorem create_conflict_no_write_witness :
    (create_appointment [w_appt] 1 w_body).1 = Except.error ApiError.slotUnavailable ∧
    (create_appointment [w_appt] 1 w_body).2 = [w_appt] ∧
    ApiError.slotUnavailable.status_code = 400 ∧
    ApiError.slotUnavailable.detail = "Time slot not available" :=
  create_conflict_no_write [w_appt] 1 w_body w_appt (List.mem_singleton.2 rfl)
    (by decide) (by decide) (by decide) (by decide)

/-- C5 counterexample: with a booked appointment over minutes 600 to 630,
a zero-duration check at minute 615 answers unavailable, not available. -/
theorem zero_duration_not_available_cex :
    check_availability [w_appt] "B" 615 0 = false := by decide

/-- C5 amended: for a duration of 0 or negative the checker does not
crash: it forms end = start + duration and evaluates the same overlap
inequality, answering available exactly when no stored non-canceled
appointment of the barber satisfies it (which need not be always). -/
theorem nonpositive_duration_same_inequality (store : List Appointment)
    (b : String) (start dur : Int) (hdur : dur ≤ 0) :
    check_availability store b start dur = true ↔
      ∀ a ∈ store, a.barber_id = b → a.status ≠ "canceled" →
        ¬(a.start_time < start + dur ∧ a.end_time > start) := by
  simp only [check_availability, Option.isNone_iff_eq_none, List.find?_eq_none,
    Bool.not_eq_true, overlapQueryMatch_eq_false_iff, gt_iff_lt]

/-- C5 amended witness: the amended statement applied at duration 0 with
the concrete one-appointment store. -/
theorem nonpositive_duration_same_inequality_witness :
    check_availability [w_appt] "B" 615 0 = true ↔
      ∀ a ∈ [w_appt], a.barber_id = "B" → a.status ≠ "canceled" →
        ¬(a.start_time < 615 + 0 ∧ a.end_time > 615) :=
  nonpositive_duration_same_inequality [w_appt] "B" 615 0 (by decide)

end BarberBooking

namespace BarberBooking

/-- The collection after the cancel endpoint is whatever update_one left,
in both the 404 and the success branch. -/
theorem cancel_appointment_snd (store : List Appointment) (aid : Nat) (now : Int) :
    (cancel_appointment store aid now).2 = (update_one_cancel store aid now).1 := by
  simp only [cancel_appointment]
  split <;> rfl

/-- update_one with the cancel update keeps every field of every document
except possibly status and updated_at; a changed document holds status
canceled and updated_at now. -/
theorem update_one_cancel_fields (store : List Appointment) (aid : Nat) (now : Int) :
    List.Forall₂ (fun a a2 =>
      a2.start_time = a.start_time ∧ a2.end_time = a.end_time ∧
      a2.duration_min = a.duration_min ∧ a2.id = a.id ∧
      a2.customer_name = a.customer_name ∧ a2.customer_phone = a.customer_phone ∧
      a2.barber_id = a.barber_id ∧ a2.service_name = a.service_name ∧
      a2.notes = a.notes ∧ (a2 = a ∨ (a2.status = "canceled" ∧ a2.updated_at = some now)))
      store (update_one_cancel store aid now).1 := by
  induction store with
  | nil => exact List.Forall₂.nil
  | cons a rest ih =>
      by_cases h : a.id = aid
      · simp only [update_one_cancel, if_pos h]
        refine List.Forall₂.cons
          ⟨rfl, rfl, rfl, rfl, rfl, rfl, rfl, rfl, rfl, Or.inr ⟨rfl, rfl⟩⟩ ?_
        exact List.forall₂_same.2
          (fun x _ => ⟨rfl, rfl, rfl, rfl, rfl, rfl, rfl, rfl, rfl, Or.inl rfl⟩)
      · simp only [update_one_cancel, if_neg h]
        exact List.Forall₂.cons
          ⟨rfl, rfl, rfl, rfl, rfl, rfl, rfl, rfl, rfl, Or.inl rfl⟩ ih

/-- Every document of the collection left by the cancel update is an
original document or an original with the cancel fields set. -/
theorem update_one_cancel_mem (store : List Appointment) (aid : Nat) (now : Int) :
    ∀ b ∈ (update_one_cancel store aid now).1, ∃ a ∈ store,
      b = a ∨ b = applyCancelSet now a := by
  induction store with
  | nil => intro b hb; simp [update_one_cancel] at hb
  | cons a rest ih =>
      intro b hb
      by_cases h : a.id = aid
      · simp only [update_one_cancel, if_pos h] at hb
        rcases List.mem_cons.mp hb with he | hm
        · exact ⟨a, List.mem_cons_self a rest, Or.inr he⟩
        · exact ⟨b, List.mem_cons_of_mem a hm, Or.inl rfl⟩
      · simp only [update_one_cancel, if_neg h] at hb
        rcases List.mem_cons.mp hb with he | hm
        · exact ⟨a, List.mem_cons_self a rest, Or.inl he⟩
        · obtain ⟨a0, ha0, hor⟩ := ih b hm
          exact ⟨a0, List.mem_cons_of_mem a ha0, hor⟩

/-- When the current instant is later than every stored updated_at, the
cancel update reports zero modified documents exactly when no document has
the requested id. -/
theorem update_one_cancel_count_zero_iff (store : List Appointment) (aid : Nat)
    (now : Int) (hfresh : ∀ a ∈ store, ∀ t, a.updated_at = some t → t < now) :
    (update_one_cancel store aid now).2 = 0 ↔ ∀ a ∈ store, a.id ≠ aid := by
  induction store with
  | nil => simp [update_one_cancel]
  | cons a rest ih =>
      have hne : applyCancelSet now a ≠ a := by
        intro he
        have h1 : some now = a.updated_at := congrArg Appointment.updated_at he
        cases hu : a.updated_at with
        | none => rw [hu] at h1; exact Option.some_ne_none now h1
        | some t =>
            rw [hu] at h1
            have hnt : now = t := Option.some.inj h1
            exact absurd (hfresh a (List.mem_cons_self a rest) t hu)
              (by rw [← hnt]; exact lt_irrefl now)
      by_cases h : a.id = aid
      · simp only [update_one_cancel, if_pos h, if_neg hne]
        simp only [List.mem_cons]
        constructor
        · intro h10; exact absurd h10 one_ne_zero
        · intro hall; exact absurd h (hall a (Or.inl rfl))
      · simp only [update_one_cancel, if_neg h]
        rw [ih (fun b hb => hfresh b (List.mem_cons_of_mem a hb))]
        constructor
        · intro hall b hb
          rcases List.mem_cons.mp hb with he | hm
          · rw [he]; exact h
          · exact hall b hm
        · intro hall b hb
          exact hall b (List.mem_cons_of_mem a hb)

/-- When some stored document has the requested id, the collection left by
the cancel update re-reads at that id to a record with status canceled and
updated_at set to the instant of the call. -/
theorem update_one_cancel_found (store : List Appointment) (aid : Nat) (now : Int)
    (a0 : Appointment) (h0 : a0 ∈ store) (hid : a0.id = aid) :
    ∃ a1, ((update_one_cancel store aid now).1.find? (fun x => x.id == aid)) = some a1 ∧
      a1 ∈ (update_one_cancel store aid now).1 ∧
      a1.status = "canceled" ∧ a1.updated_at = some now ∧ a1.id = aid := by
  induction store with
  | nil => cases h0
  | cons a rest ih =>
      by_cases h : a.id = aid
      · refine ⟨applyCancelSet now a, ?_, ?_, rfl, rfl, h⟩
        · simp [update_one_cancel, h, applyCancelSet]
        · simp [update_one_cancel, h]
      · rcases List.mem_cons.mp h0 with he | hm
        · exact absurd hid (he ▸ h)
        · obtain ⟨a1, hf, hmem, hst, hup, hid1⟩ := ih hm
          refine ⟨a1, ?_, ?_, hst, hup, hid1⟩
          · have hh : (a.id == aid) = false := by simp [h]
            simp [update_one_cancel, if_neg h, List.find?_cons, hh, hf]
          · simp only [update_one_cancel, if_neg h]
            exact List.mem_cons_of_mem a hmem

end BarberBooking

namespace BarberBooking

/-- C4: the document create persists carries end_time = start_time plus
duration_min and status booked, appended to the collection; and cancel
leaves every field of every stored document other than status and
updated_at unchanged. -/
theorem end_time_invariant_preserved (store : List Appointment)
    (newId : Nat) (body : AppointmentIn) (aid : Nat) (now : Int) :
    (∀ doc store2, create_appointment store newId body = (Except.ok doc, store2) →
      doc.end_time = doc.start_time + doc.duration_min ∧ doc.status = "booked" ∧
      store2 = store ++ [doc]) ∧
    List.Forall₂ (fun a a2 =>
      a2.start_time = a.start_time ∧ a2.end_time = a.end_time ∧
      a2.duration_min = a.duration_min ∧ a2.id = a.id ∧
      a2.customer_name = a.customer_name ∧ a2.customer_phone = a.customer_phone ∧
      a2.barber_id = a.barber_id ∧ a2.service_name = a.service_name ∧
      a2.notes = a.notes ∧ (a2 = a ∨ (a2.status = "canceled" ∧ a2.updated_at = some now)))
      store (cancel_appointment store aid now).2 := by
  constructor
  · intro doc store2 h
    cases hf : store.find? (overlapQueryMatch body.barber_id body.start_time
        (body.start_time + body.duration_min)) with
    | some c => rw [create_appointment] at h; simp [hf] at h
    | none =>
        rw [create_appointment] at h
        simp only [hf] at h
        obtain ⟨h1, h2⟩ := Prod.mk.injEq .. ▸ h
        have hdoc : doc = mkAppointment newId body (body.start_time + body.duration_min) :=
          (Except.ok.inj h1).symm
        subst hdoc
        exact ⟨rfl, rfl, h2.symm⟩
  · rw [cancel_appointment_snd]
    exact update_one_cancel_fields store aid now

/-- C6: with the call instant later than every stored updated_at, cancel
fails with NotFound (status 404) exactly when no stored document has the
requested id; for an existing id it answers with the re-read record,
canceled and stamped with the call instant. -/
theorem cancel_notfound_iff_absent (store : List Appointment) (aid : Nat) (now : Int)
    (hfresh : ∀ a ∈ store, ∀ t, a.updated_at = some t → t < now) :
    ((cancel_appointment store aid now).1 = Except.error ApiError.notFound ↔
      ∀ a ∈ store, a.id ≠ aid) ∧
    (∀ a ∈ store, a.id = aid →
      ∃ r, (cancel_appointment store aid now).1 = Except.ok (some r) ∧
        r.status = "canceled" ∧ r.updated_at = some now ∧ r.id = aid ∧
        r ∈ (cancel_appointment store aid now).2) ∧
    ApiError.notFound.status_code = 404 := by
  have hzero := update_one_cancel_count_zero_iff store aid now hfresh
  refine ⟨⟨?_, ?_⟩, ?_, rfl⟩
  · intro he
    by_contra hnall
    push_neg at hnall
    obtain ⟨a, ha, hid⟩ := hnall
    have hcount : ¬ (update_one_cancel store aid now).2 = 0 :=
      fun hz => hzero.mp hz a ha hid
    simp [cancel_appointment, if_neg hcount] at he
  · intro hall
    have hz : (update_one_cancel store aid now).2 = 0 := hzero.mpr hall
    simp [cancel_appointment, hz]
  · intro a ha hid
    have hcount : ¬ (update_one_cancel store aid now).2 = 0 :=
      fun hz => hzero.mp hz a ha hid
    obtain ⟨a1, hf, hmem, hst, hup, hid1⟩ := update_one_cancel_found store aid now a ha hid
    refine ⟨a1, ?_, hst, hup, hid1, ?_⟩
    · simp [cancel_appointment, if_neg hcount, hf]
    · rw [cancel_appointment_snd]; exact hmem

/-- C6 witness: the statement applied to the one-appointment store at id 0
and instant 100, the freshness hypothesis discharged concretely. -/
theorem cancel_notfound_iff_absent_witness :
    (((cancel_appointment [w_appt] 0 100).1 = Except.error ApiError.notFound ↔
      ∀ a ∈ [w_appt], a.id ≠ 0) ∧
    (∀ a ∈ [w_appt], a.id = 0 →
      ∃ r, (cancel_appointment [w_appt] 0 100).1 = Except.ok (some r) ∧
        r.status = "canceled" ∧ r.updated_at = some 100 ∧ r.id = 0 ∧
        r ∈ (cancel_appointment [w_appt] 0 100).2) ∧
    ApiError.notFound.status_code = 404) :=
  cancel_notfound_iff_absent [w_appt] 0 100
    (by intro a ha t ht; rw [List.mem_singleton] at ha; subst ha; simp [w_appt] at ht)

/-- C10: under the same freshness discipline, cancelling an id that was
just cancelled succeeds again (the fresh updated_at makes the modified
count nonzero) and keeps status canceled; the NotFound branch is reachable
only when no stored document has the id. -/
theorem cancel_twice_succeeds (store : List Appointment) (aid : Nat)
    (now now2 : Int)
    (hfresh : ∀ a ∈ store, ∀ t, a.updated_at = some t → t < now)
    (hlt : now < now2) :
    (∀ a ∈ store, a.id = aid →
      ∃ r, (cancel_appointment (cancel_appointment store aid now).2 aid now2).1 =
          Except.ok (some r) ∧ r.status = "canceled" ∧ r.updated_at = some now2 ∧
          r.id = aid) ∧
    ((cancel_appointment store aid now).1 = Except.error ApiError.notFound →
      ∀ a ∈ store, a.id ≠ aid) := by
  have hfresh2 : ∀ b ∈ (cancel_appointment store aid now).2, ∀ t,
      b.updated_at = some t → t < now2 := by
    rw [cancel_appointment_snd]
    intro b hb t ht
    obtain ⟨a, ha, hor⟩ := update_one_cancel_mem store aid now b hb
    rcases hor with he | he
    · exact lt_trans (hfresh a ha t (he ▸ ht)) hlt
    · have hx : some t = some now := by rw [← ht, he]; rfl
      rw [Option.some.inj hx]
      exact hlt
  constructor
  · intro a ha hid
    obtain ⟨a1, hf1, hmem1, hst1, hup1, hid1⟩ :=
      update_one_cancel_found store aid now a ha hid
    set store2 := (cancel_appointment store aid now).2 with hs2
    have hmem2 : a1 ∈ store2 := by rw [hs2, cancel_appointment_snd]; exact hmem1
    have hzero2 := update_one_cancel_count_zero_iff store2 aid now2 hfresh2
    have hcount2 : ¬ (update_one_cancel store2 aid now2).2 = 0 :=
      fun hz => hzero2.mp hz a1 hmem2 hid1
    obtain ⟨r, hfr, hmemr, hstr, hupr, hidr⟩ :=
      update_one_cancel_found store2 aid now2 a1 hmem2 hid1
    exact ⟨r, by simp [cancel_appointment, if_neg hcount2, hfr], hstr, hupr, hidr⟩
  · intro he
    by_contra hnall
    push_neg at hnall
    obtain ⟨a, ha, hid⟩ := hnall
    have hcount : ¬ (update_one_cancel store aid now).2 = 0 :=
      fun hz => (update_one_cancel_count_zero_iff store aid now hfresh).mp hz a ha hid
    simp [cancel_appointment, if_neg hcount] at he

/-- C10 witness: the statement applied to the one-appointment store, first
cancel at instant 100, second at 101. -/
theorem cancel_twice_succeeds_witness :
    ((∀ a ∈ [w_appt], a.id = 0 →
      ∃ r, (cancel_appointment (cancel_appointment [w_appt] 0 100).2 0 101).1 =
          Except.ok (some r) ∧ r.status = "canceled" ∧ r.updated_at = some 101 ∧
          r.id = 0) ∧
    ((cancel_appointment [w_appt] 0 100).1 = Except.error ApiError.notFound →
      ∀ a ∈ [w_appt], a.id ≠ 0)) :=
  cancel_twice_succeeds [w_appt] 0 100 101
    (by intro a ha t ht; rw [List.mem_singleton] at ha; subst ha; simp [w_appt] at ht)
    (by decide)

end BarberBooking

namespace BarberBooking

/-- C7 evidence: a create request with duration 3, outside the 5..240
bounds schemas.py declares for the appointment collection, is accepted by
the create path and a document violating the bound is written. -/
theorem create_accepts_out_of_bounds_duration :
    (create_appointment [] 1 oobBody).1 = Except.ok (mkAppointment 1 oobBody 303) ∧
    (create_appointment [] 1 oobBody).2 = [mkAppointment 1 oobBody 303] ∧
    ¬ durationWithinSchemaBounds (mkAppointment 1 oobBody 303) :=
  ⟨rfl, rfl, by unfold durationWithinSchemaBounds; decide⟩

/-- C8 counterexample: on a name with an interior tab, mask_name (which
splits on the space character only) disagrees with the whitespace-splitting
description of the claim. -/
theorem mask_name_space_vs_whitespace_cex :
    mask_name "a\tb".toList = "a***".toList ∧
    maskNameWhitespaceSpec "a\tb".toList = "a* b*".toList ∧
    mask_name "a\tb".toList ≠ maskNameWhitespaceSpec "a\tb".toList := by decide

/-- specTokensGo agrees with splitting the accumulator followed by the
remaining input on the space character and dropping empty parts, for any
space-free accumulator. -/
theorem specTokensGo_eq (l : List Char) : ∀ acc : List Char, (∀ c ∈ acc, c ≠ ' ') →
    specTokensGo l acc =
      ((acc.reverse ++ l).splitOn ' ').filter (fun p => !p.isEmpty) := by
  induction l with
  | nil =>
      intro acc hacc
      have hsingle : acc.reverse.splitOn ' ' = [acc.reverse] := by
        rw [List.splitOn]
        exact List.splitOnP_eq_single _ _ (fun x hx => by
          simp only [beq_iff_eq]
          exact hacc x (List.mem_reverse.mp hx))
      cases acc with
      | nil => simp [specTokensGo, List.splitOn]
      | cons c acc0 =>
          simp only [specTokensGo, List.append_nil, hsingle]
          simp [List.filter_cons]
  | cons c rest ih =>
      intro acc hacc
      by_cases hc : c = ' '
      · subst hc
        have hsplit : (acc.reverse ++ ' ' :: rest).splitOn ' ' =
            acc.reverse :: rest.splitOn ' ' := by
          rw [List.splitOn, List.splitOn]
          exact List.splitOnP_first _ _ (fun x hx => by
            simp only [beq_iff_eq]
            exact hacc x (List.mem_reverse.mp hx)) ' ' (by simp) rest
        have hrest := ih [] (by simp)
        simp only [List.reverse_nil, List.nil_append] at hrest
        cases acc with
        | nil =>
            simp only [List.reverse_nil, List.nil_append] at hsplit ⊢
            rw [hsplit]
            simp [specTokensGo, hrest, List.filter_cons]
        | cons c0 acc0 =>
            rw [hsplit]
            simp [specTokensGo, hrest, List.filter_cons]
      · have hstep : specTokensGo (c :: rest) acc = specTokensGo rest (c :: acc) := by
          simp only [specTokensGo]
          rw [if_neg (by simpa using hc)]
        rw [hstep, ih (c :: acc) (fun x hx => by
          rcases List.mem_cons.mp hx with he | hm
          · rw [he]; exact hc
          · exact hacc x hm)]
        have hlist : (c :: acc).reverse ++ rest = acc.reverse ++ c :: rest := by
          simp [List.reverse_cons, List.append_assoc]
        rw [hlist]

/-- The space-splitting token scan of mask_name equals the independent
left-to-right tokenizer. -/
theorem filter_splitOn_eq_specTokens (l : List Char) :
    (l.splitOn ' ').filter (fun p => !p.isEmpty) = specTokens l := by
  rw [specTokens, specTokensGo_eq l [] (by simp)]
  simp

/-- C8 amended: mask_name behaves exactly as described once tokens are cut
at the space character rather than at arbitrary whitespace: strip, scan
maximal space-free tokens, mask each (first character plus one star for
length at most 2, else three stars), join with single spaces, with the
Customer fallback when no token remains; it is total for every input. -/
theorem mask_name_space_split_description (name : List Char) :
    mask_name name = maskNameSpaceSpec name := by
  simp only [mask_name, maskNameSpaceSpec, partsOf, filter_splitOn_eq_specTokens]

end BarberBooking

namespace BarberBooking

/-- A list of stars followed by one more star is some prefix plus a final
star. -/
theorem allstar_concat (rest : List Char) (h : ∀ x ∈ rest, x = '*') :
    ∃ pre, ('*' :: rest : List Char) = pre ++ ['*'] := by
  induction rest with
  | nil => exact ⟨[], rfl⟩
  | cons x rs ih =>
      obtain ⟨pre, hpre⟩ := ih (fun y hy => h y (List.mem_cons_of_mem x hy))
      have hx : x = '*' := h x (List.mem_cons_self x rs)
      subst hx
      exact ⟨'*' :: pre, by rw [List.cons_append, ← hpre]⟩

/-- Helper shape of a masked token: a non-space head character, a star,
then only stars. -/
def MaskedShape (m : List Char) : Prop :=
  ∃ c rest, m = c :: '*' :: rest ∧ (∀ x ∈ rest, x = '*') ∧ c ≠ ' '

/-- maskToken turns any non-empty space-free token into MaskedShape. -/
theorem maskToken_shape (p : List Char) (hne : p ≠ []) (hsp : ∀ x ∈ p, x ≠ ' ') :
    MaskedShape (maskToken p) := by
  cases p with
  | nil => exact absurd rfl hne
  | cons c r =>
      have hc : c ≠ ' ' := hsp c (List.mem_cons_self c r)
      by_cases hr : r.length ≤ 1
      · exact ⟨c, [], by simp [maskToken, hr], by simp, hc⟩
      · exact ⟨c, ['*', '*'], by simp [maskToken, hr], by simp, hc⟩

/-- A list in MaskedShape ends with a star. -/
theorem maskedShape_concat {m : List Char} (h : MaskedShape m) :
    ∃ pre, m = pre ++ ['*'] := by
  obtain ⟨c, rest, hm, hstar, _⟩ := h
  obtain ⟨pre, hpre⟩ := allstar_concat rest hstar
  exact ⟨c :: pre, by rw [hm, hpre, List.cons_append]⟩

/-- Joining lists with single spaces, written out for a head and non-empty
tail. -/
theorem intercalate_cons₂ (s a : List Char) (b : List Char) (l : List (List Char)) :
    List.intercalate s (a :: b :: l) = a ++ s ++ List.intercalate s (b :: l) := by
  simp [List.intercalate, List.intersperse_cons₂, List.flatten, List.append_assoc]

/-- The space join of MaskedShape tokens ends with a star. -/
theorem intercalate_masked_concat (ms : List (List Char)) (hne : ms ≠ [])
    (hall : ∀ m ∈ ms, MaskedShape m) :
    ∃ pre, List.intercalate [' '] ms = pre ++ ['*'] := by
  induction ms with
  | nil => exact absurd rfl hne
  | cons m ms0 ih =>
      cases ms0 with
      | nil =>
          obtain ⟨pre, hpre⟩ := maskedShape_concat (hall m (List.mem_cons_self m []))
          exact ⟨pre, by simpa [List.intercalate] using hpre⟩
      | cons b l =>
          obtain ⟨pre, hpre⟩ := ih (by simp)
            (fun x hx => hall x (List.mem_cons_of_mem m hx))
          refine ⟨m ++ [' '] ++ pre, ?_⟩
          rw [intercalate_cons₂, hpre]
          simp [List.append_assoc]

end BarberBooking

namespace BarberBooking

/-- No part produced by splitOnP contains a character matching the
predicate. -/
theorem splitOnP_parts_no_match (q : Char → Bool) :
    ∀ (l : List Char), ∀ p ∈ l.splitOnP q, ∀ x ∈ p, ¬ q x := by
  intro l
  induction l with
  | nil =>
      intro p hp x hx
      rw [List.splitOnP_nil] at hp
      rw [List.mem_singleton.mp hp] at hx
      cases hx
  | cons c rest ih =>
      intro p hp x hx
      rw [List.splitOnP_cons] at hp
      by_cases hq : q c
      · rw [if_pos hq] at hp
        rcases List.mem_cons.mp hp with h | h
        · rw [h] at hx; cases hx
        · exact ih p h x hx
      · rw [if_neg hq] at hp
        cases hS : rest.splitOnP q with
        | nil => exact absurd hS (List.splitOnP_ne_nil q rest)
        | cons s0 S2 =>
            rw [hS] at hp
            simp only [List.modifyHead] at hp
            rcases List.mem_cons.mp hp with h | h
            · subst h
              rcases List.mem_cons.mp hx with h2 | h2
              · rw [h2]; exact hq
              · exact ih s0 (by rw [hS]; exact List.mem_cons_self s0 S2) x h2
            · exact ih p (by rw [hS]; exact List.mem_cons_of_mem s0 h) x hx

/-- Every token of partsOf is non-empty and space-free. -/
theorem partsOf_props (s : List Char) : ∀ p ∈ partsOf s, p ≠ [] ∧ ∀ x ∈ p, x ≠ ' ' := by
  intro p hp
  rw [partsOf] at hp
  have hmem := List.mem_of_mem_filter hp
  have hfp := List.of_mem_filter hp
  refine ⟨by simpa using hfp, ?_⟩
  intro x hx
  rw [List.splitOn] at hmem
  have := splitOnP_parts_no_match (fun y => y == ' ') (pyStrip s) p hmem x hx
  simpa using this

/-- pyStrip does not touch the tail of a list ending in a non-whitespace
character, so only the leading whitespace is dropped. -/
theorem pyStrip_concat (pre : List Char) (x : Char)
    (hx : pythonWhitespace x = false) :
    pyStrip (pre ++ [x]) = (pre ++ [x]).dropWhile pythonWhitespace := by
  rw [pyStrip, List.dropWhile_append]
  by_cases he : (pre.dropWhile pythonWhitespace).isEmpty
  · rw [if_pos he]
    rw [List.dropWhile_cons_of_neg (by simp [hx])]
    have h2 : (([x] : List Char).reverse.dropWhile pythonWhitespace).reverse = [x] := by
      simp [List.dropWhile_cons_of_neg, hx]
    simpa using h2
  · rw [if_neg he]
    rw [List.reverse_append]
    simp only [List.reverse_cons, List.reverse_nil, List.nil_append, List.singleton_append]
    rw [List.dropWhile_cons_of_neg (by simp [hx])]
    simp

end BarberBooking

namespace BarberBooking

/-- Dropping leading whitespace from a MaskedShape token followed by any
tail removes at most the head character, leaving a non-empty space-free
token that still contains a star. -/
theorem maskedShape_dropWhile (m : List Char) (h : MaskedShape m) :
    ∃ m1, (∀ t, List.dropWhile pythonWhitespace (m ++ t) = m1 ++ t) ∧
      m1 ≠ [] ∧ (∀ x ∈ m1, x ≠ ' ') ∧ '*' ∈ m1 := by
  obtain ⟨c, rest, hm, hstar, hc⟩ := h
  by_cases hwc : pythonWhitespace c
  · refine ⟨'*' :: rest, ?_, by simp, ?_, by simp⟩
    · intro t
      rw [hm, List.cons_append, List.dropWhile_cons_of_pos hwc, List.cons_append,
        List.dropWhile_cons_of_neg (by decide)]
    · intro x hx
      rcases List.mem_cons.mp hx with h1 | h1
      · rw [h1]; decide
      · rw [hstar x h1]; decide
  · refine ⟨m, ?_, by rw [hm]; simp, ?_, by rw [hm]; simp⟩
    · intro t
      rw [hm, List.cons_append, List.dropWhile_cons_of_neg hwc, ← List.cons_append, ← hm]
    · intro x hx
      rw [hm] at hx
      rcases List.mem_cons.mp hx with h1 | h1
      · rw [h1]; exact hc
      rcases List.mem_cons.mp h1 with h2 | h2
      · rw [h2]; decide
      · rw [hstar x h2]; decide

/-- A MaskedShape token is non-empty, space-free and contains a star. -/
theorem maskedShape_props {m : List Char} (h : MaskedShape m) :
    m ≠ [] ∧ (' ' ∉ m) ∧ '*' ∈ m := by
  obtain ⟨c, rest, hm, hstar, hc⟩ := h
  subst hm
  refine ⟨by simp, ?_, by simp⟩
  intro hmem
  rcases List.mem_cons.mp hmem with h1 | h1
  · exact hc h1.symm
  rcases List.mem_cons.mp h1 with h2 | h2
  · exact absurd h2 (by decide)
  · exact absurd (hstar ' ' h2) (by decide)

/-- Every token of partsOf applied to a space join of MaskedShape tokens
contains a star. -/
theorem parts_of_masked_join (ms : List (List Char)) (hne : ms ≠ [])
    (hall : ∀ m ∈ ms, MaskedShape m) :
    ∀ p ∈ partsOf (List.intercalate [' '] ms), '*' ∈ p := by
  obtain ⟨m1, ms2, rfl⟩ : ∃ a l, ms = a :: l := by
    cases ms with
    | nil => exact absurd rfl hne
    | cons a l => exact ⟨a, l, rfl⟩
  obtain ⟨pre, hpre⟩ := intercalate_masked_concat (m1 :: ms2) hne hall
  have hps : pyStrip (List.intercalate [' '] (m1 :: ms2)) =
      (List.intercalate [' '] (m1 :: ms2)).dropWhile pythonWhitespace := by
    rw [hpre]; exact pyStrip_concat pre '*' (by decide)
  obtain ⟨m1r, hdw, hm1ne, hm1sp, hm1star⟩ :=
    maskedShape_dropWhile m1 (hall m1 (List.mem_cons_self m1 ms2))
  cases ms2 with
  | nil =>
      intro p hp
      have hu : List.intercalate [' '] [m1] = m1 ++ [] := by
        simp [List.intercalate]
      rw [partsOf, hps, hu, hdw []] at hp
      have hsingle : (m1r ++ []).splitOn ' ' = [m1r ++ []] := by
        rw [List.splitOn]
        exact List.splitOnP_eq_single _ _ (fun x hx => by
          simp only [beq_iff_eq]
          exact hm1sp x (by simpa using hx))
      rw [hsingle] at hp
      have : p = m1r ++ [] := by
        have h1 := List.mem_of_mem_filter hp
        simpa using List.mem_singleton.mp h1
      rw [this]
      simpa using hm1star
  | cons b l =>
      intro p hp
      have hu : List.intercalate [' '] (m1 :: b :: l) =
          m1 ++ (' ' :: List.intercalate [' '] (b :: l)) := by
        rw [intercalate_cons₂]
        simp
      rw [partsOf, hps, hu, hdw (' ' :: List.intercalate [' '] (b :: l))] at hp
      have hsplit1 : (m1r ++ ' ' :: List.intercalate [' '] (b :: l)).splitOn ' ' =
          m1r :: (List.intercalate [' '] (b :: l)).splitOn ' ' := by
        rw [List.splitOn, List.splitOn]
        exact List.splitOnP_first _ _ (fun x hx => by
          simp only [beq_iff_eq]
          exact hm1sp x hx) ' ' (by simp) _
      have hsplit2 : (List.intercalate [' '] (b :: l)).splitOn ' ' = b :: l := by
        refine List.splitOn_intercalate _ ' ' ?_ (by simp)
        intro m hm hmem
        obtain ⟨-, hnosp, -⟩ :=
          maskedShape_props (hall m (List.mem_cons_of_mem m1 hm))
        exact hnosp hmem
      rw [hsplit1, hsplit2] at hp
      have hkeep : ∀ q ∈ (m1r :: b :: l), q ≠ [] := by
        intro q hq
        rcases List.mem_cons.mp hq with h1 | h1
        · rw [h1]; exact hm1ne
        · exact (maskedShape_props (hall q (List.mem_cons_of_mem m1 h1))).1
      have hfilter : (m1r :: b :: l).filter (fun q => !q.isEmpty) = m1r :: b :: l := by
        rw [List.filter_eq_self]
        intro q hq
        simpa using hkeep q hq
      rw [hfilter] at hp
      rcases List.mem_cons.mp hp with h1 | h1
      · rw [h1]; exact hm1star
      · obtain ⟨-, -, hstar⟩ :=
          maskedShape_props (hall p (List.mem_cons_of_mem m1 h1))
        exact hstar

end BarberBooking

namespace BarberBooking

/-- C9 counterexample: the phone string with the mask prefix already in
place has 4 digits yet is returned unchanged by mask_phone. -/
theorem mask_phone_fixed_point_cex :
    4 ≤ ("***-***-4567".toList.filter pyIsDigit).length ∧
    mask_phone "***-***-4567".toList = "***-***-4567".toList := by decide

/-- C9 amended: mask_name never returns a name holding at least one
alphabetic space-delimited token, and mask_phone returns a phone with at
least 4 digits unchanged exactly when that phone is already the fixed
mask prefix followed by its own last four digits; both functions are
total, so no exception is possible. -/
theorem masking_never_identity (name phone : List Char) :
    ((∃ t ∈ partsOf name, ∀ c ∈ t, c.isAlpha = true) → mask_name name ≠ name) ∧
    (4 ≤ (phone.filter pyIsDigit).length →
      (mask_phone phone = phone ↔
        phone = "***-***-".toList ++
          (phone.filter pyIsDigit).drop ((phone.filter pyIsDigit).length - 4))) := by
  constructor
  · rintro ⟨t, ht, halpha⟩ heq
    have hne : ¬ (partsOf name).isEmpty = true := by
      intro h
      rw [List.isEmpty_iff.mp h] at ht
      cases ht
    have hmask : mask_name name =
        List.intercalate [' '] ((partsOf name).map maskToken) := by
      simp only [mask_name]
      rw [if_neg hne]
    have hall : ∀ m ∈ (partsOf name).map maskToken, MaskedShape m := by
      intro m hm
      obtain ⟨p0, hp0, rfl⟩ := List.mem_map.mp hm
      obtain ⟨hne0, hsp0⟩ := partsOf_props name p0 hp0
      exact maskToken_shape p0 hne0 hsp0
    have hmapne : (partsOf name).map maskToken ≠ [] := by
      cases hpn : partsOf name with
      | nil => rw [hpn] at ht; cases ht
      | cons a l => simp
    have hstar : '*' ∈ t := by
      have h1 : t ∈ partsOf (mask_name name) := by rw [heq]; exact ht
      rw [hmask] at h1
      exact parts_of_masked_join _ hmapne hall t h1
    exact absurd (halpha '*' hstar) (by decide)
  · intro h4
    have hm : mask_phone phone = "***-***-".toList ++
        (phone.filter pyIsDigit).drop ((phone.filter pyIsDigit).length - 4) := by
      rw [mask_phone]
      exact if_neg (by omega)
    rw [hm]
    exact eq_comm

end BarberBooking
